import Mathlib

/- Verification development for the Mahjong simulation repository
(Benjamin-Kessler/Mahjong).  The C++ sources are shallowly embedded:
tiles, hands and piles become Lean structures and lists, the meld
enumerator, the scoring engine and the Dancing-Links exact-cover solver
become executable Lean functions, and the claims about them are settled
as theorems below the definitions.

Conventions used throughout:
 - `int` values of the C++ become `ℤ`; container sizes and indices become `ℕ`.
 - `std::set<int>` values (melds, covers) become `Finset ℕ`.
 - functions that can dereference an invalid pointer in the C++ return
   `Option` results, `none` marking the undefined behaviour.
-/

namespace Mahjong

/-- Embeds `Mahjong::Tile` (include/Tile.hpp): a suit, a rank and a
mutable visibility flag; `hidden` defaults to `true` as in the C++
member initializer. -/
structure Tile where
  suit : ℤ
  rank : ℤ
  hidden : Bool := true
  deriving Repr, DecidableEq

instance : Inhabited Tile := ⟨⟨0, 0, true⟩⟩

/-- Embeds `Tile::operator==` (include/Tile.hpp): equality compares suit
and rank only, never the visibility flag. -/
def tileEq (a b : Tile) : Bool :=
  a.suit == b.suit && a.rank == b.rank

/-- Embeds `Tile::is_hidden`. -/
def Tile.is_hidden (t : Tile) : Bool := t.hidden

/-- A hand (`Mahjong::Hand`, include/Hand.hpp) is its `tiles` vector. -/
abbrev Hand := List Tile

/-- Embeds `Mahjong::Set::pop_tile` (Set.hpp, lines 65-74): on an empty
set it returns the default tile `Tile(0, 0)` (suit Circles, rank 0) and
leaves the set unchanged; otherwise it returns the last tile and removes
it.  The returned pair is (popped tile, remaining set). -/
def Set.pop_tile (tiles : List Tile) : Tile × List Tile :=
  if tiles.length = 0 then (⟨0, 0, true⟩, tiles)
  else (tiles.getLastD default, tiles.dropLast)

/-- Embeds `Discard_pile::back` (include/Discard_pile.hpp):
`tiles.back()` is only defined on a non-empty pile; the default value is
never relied on below (all theorems assume a non-empty pile). -/
def Discard_pile.back (tiles : List Tile) : Tile :=
  tiles.getLastD default

/-- Embeds `Mahjong::Game::prioritize_pickup_action`
(include/Game.hpp, lines 228-246): the first `"kong"` claim wins,
otherwise the first `"pong"`, otherwise the first `"chow"`, otherwise
`(-1, "none")`.  `List.indexOf` returns the list length when the element
is absent, exactly like `std::find(...) - begin()`. -/
def Game.prioritize_pickup_action (player_actions : List String) : ℤ × String :=
  let i1 := player_actions.indexOf "kong"
  if i1 < player_actions.length then ((i1 : ℤ), "kong")
  else
    let i2 := player_actions.indexOf "pong"
    if i2 < player_actions.length then ((i2 : ℤ), "pong")
    else
      let i3 := player_actions.indexOf "chow"
      if i3 < player_actions.length then ((i3 : ℤ), "chow")
      else (-1, "none")

/-- Embeds the fixed lookup table built by `Mahjong::initialize_score_table`
(score_table.hpp, lines 44-105).  Keys are (combination type, suit,
visibility) where, per the table's own documentation, visibility `1`
means the tiles are hidden and `0` means they are not; `2` marks a
partially open kong.  A key that was never set yields `(0, 0)`, matching
`operator[]` value-initialization on a missing key. -/
def score_table : ℤ → ℤ → ℤ → ℤ × ℤ := fun type suit visibility =>
  match type, suit, visibility with
  -- pairs
  | 0, 0, 1 => (0, 0)
  | 0, 1, 1 => (0, 0)
  | 0, 2, 1 => (0, 0)
  | 0, 3, 1 => (2, 0)
  | 0, 4, 1 => (2, 0)
  -- chows
  | 1, 0, 0 => (0, 0)
  | 1, 0, 1 => (0, 0)
  | 1, 1, 0 => (0, 0)
  | 1, 1, 1 => (0, 0)
  | 1, 2, 0 => (0, 0)
  | 1, 2, 1 => (0, 0)
  | 1, 3, 0 => (0, 0)
  | 1, 3, 1 => (0, 0)
  | 1, 4, 0 => (0, 0)
  | 1, 4, 1 => (0, 0)
  -- pongs
  | 2, 0, 0 => (4, 0)
  | 2, 0, 1 => (8, 0)
  | 2, 1, 0 => (4, 0)
  | 2, 1, 1 => (8, 0)
  | 2, 2, 0 => (4, 0)
  | 2, 2, 1 => (8, 0)
  | 2, 3, 0 => (8, 1)
  | 2, 3, 1 => (16, 1)
  | 2, 4, 0 => (8, 1)
  | 2, 4, 1 => (16, 1)
  -- kongs
  | 3, 0, 0 => (8, 1)
  | 3, 0, 1 => (16, 1)
  | 3, 0, 2 => (16, 1)
  | 3, 1, 0 => (8, 1)
  | 3, 1, 1 => (16, 1)
  | 3, 1, 2 => (16, 1)
  | 3, 2, 0 => (8, 1)
  | 3, 2, 1 => (16, 1)
  | 3, 2, 2 => (16, 1)
  | 3, 3, 0 => (16, 2)
  | 3, 3, 1 => (32, 2)
  | 3, 3, 2 => (32, 2)
  | 3, 4, 0 => (16, 2)
  | 3, 4, 1 => (32, 2)
  | 3, 4, 2 => (32, 2)
  | _, _, _ => (0, 0)

/-- Modelled from the spec: include/Hand.hpp line 1021 looks scores up
as `score_table[{type, suit, visibility, wind}]`, a four-key table whose
defining header is not part of this snapshot (only the three-key
`score_table.hpp` is).  Per the spec's score-entry model, the key is
(type, suit, visibility-class, wind-relevance) with the fixed base and
multiplier values of the table in `score_table.hpp`; the spec assigns no
values to positive wind-relevance, and no theorem below exercises a
Wind-suit meld, so the relevance component is carried but left inert. -/
def score_table4 : ℤ → ℤ → ℤ → ℤ → ℤ × ℤ := fun type suit visibility _wind =>
  score_table type suit visibility

/-- The tile of a hand at index `i` (`tiles[i]`), with the default tile
out of range; every use below stays in range. -/
def tileAt (h : Hand) (i : ℕ) : Tile := h.getD i default

/-- Embeds `Hand::get_hidden_hand` (include/Hand.hpp, lines 393-404). -/
def get_hidden_hand (h : Hand) : List Tile :=
  h.filter (fun t => t.hidden)

/-- Embeds `Hand::get_pairs` (include/Hand.hpp, lines 575-594): index
pairs `{i, j}`, `i < j`, of identical tiles that are both hidden,
enumerated in the C++ double-loop order. -/
def get_pairs (h : Hand) : List (Finset ℕ) :=
  (List.range h.length).flatMap (fun i =>
    ((List.range h.length).filter (fun j => i < j)).filterMap (fun j =>
      if tileEq (tileAt h i) (tileAt h j) && (tileAt h i).hidden && (tileAt h j).hidden
      then some {i, j} else none))

/-- Ranks of three tiles in ascending order, as the C++ sorts
`int arr[] = {rank_i, rank_j, rank_k}`. -/
def sort3 (a b c : ℤ) : ℤ × ℤ × ℤ :=
  let lo := min a (min b c)
  let hi := max a (max b c)
  (lo, a + b + c - lo - hi, hi)

/-- Embeds `Hand::get_chows` (include/Hand.hpp, lines 604-634): triples
`{i, j, k}` of one suit with consecutive sorted ranks and equal
visibility.  The guard on tile `i` is the source's verbatim
`suit == 3 || suit == 3` (line 611), which skips Winds only. -/
def get_chows (h : Hand) : List (Finset ℕ) :=
  (List.range h.length).flatMap (fun i =>
    if (tileAt h i).suit == 3 || (tileAt h i).suit == 3 then []
    else
      ((List.range h.length).filter (fun j => i < j)).flatMap (fun j =>
        if !((tileAt h i).suit == (tileAt h j).suit) then []
        else
          ((List.range h.length).filter (fun k => j < k)).filterMap (fun k =>
            if !((tileAt h j).suit == (tileAt h k).suit) then none
            else
              let s := sort3 (tileAt h i).rank (tileAt h j).rank (tileAt h k).rank
              if (s.2.1 - s.1 == 1 && s.2.2 - s.2.1 == 1)
                  && ((tileAt h i).hidden == (tileAt h j).hidden)
                  && ((tileAt h j).hidden == (tileAt h k).hidden)
              then some {i, j, k} else none)))

/-- Embeds `Hand::get_pongs` (include/Hand.hpp, lines 644-666): triples
of identical tiles with equal visibility. -/
def get_pongs (h : Hand) : List (Finset ℕ) :=
  (List.range h.length).flatMap (fun i =>
    ((List.range h.length).filter (fun j => i < j)).flatMap (fun j =>
      ((List.range h.length).filter (fun k => j < k)).filterMap (fun k =>
        if tileEq (tileAt h i) (tileAt h j) && tileEq (tileAt h j) (tileAt h k)
            && ((tileAt h i).hidden == (tileAt h j).hidden)
            && ((tileAt h j).hidden == (tileAt h k).hidden)
        then some {i, j, k} else none)))

/-- Embeds `Hand::get_kongs` (include/Hand.hpp, lines 676-701):
quadruples of identical tiles, visibility unconstrained. -/
def get_kongs (h : Hand) : List (Finset ℕ) :=
  (List.range h.length).flatMap (fun i =>
    ((List.range h.length).filter (fun j => i < j)).flatMap (fun j =>
      ((List.range h.length).filter (fun k => j < k)).flatMap (fun k =>
        ((List.range h.length).filter (fun l => k < l)).filterMap (fun l =>
          if tileEq (tileAt h i) (tileAt h j) && tileEq (tileAt h j) (tileAt h k)
              && tileEq (tileAt h k) (tileAt h l)
          then some {i, j, k, l} else none))))

/-- Embeds `Hand::get_combinations` (include/Hand.hpp, lines 714-730):
pairs, then chows, then pongs, then kongs. -/
def get_combinations (h : Hand) : List (Finset ℕ) :=
  get_pairs h ++ get_chows h ++ get_pongs h ++ get_kongs h

/-- Embeds `Hand::check_kong` (include/Hand.hpp, lines 742-746): the
hidden hand holds exactly three copies of the tile. -/
def check_kong (h : Hand) (tile : Tile) : Bool :=
  (get_hidden_hand h).countP (fun t => tileEq t tile) == 3

/-- Embeds `Hand::check_pong` (include/Hand.hpp, lines 758-762): the
hidden hand holds exactly two copies of the tile. -/
def check_pong (h : Hand) (tile : Tile) : Bool :=
  (get_hidden_hand h).countP (fun t => tileEq t tile) == 2

/-- Embeds `Hand::find_chow_starter_ranks` (include/Hand.hpp,
lines 552-565). -/
def find_chow_starter_ranks (all_ranks : Finset ℤ) : Finset ℤ :=
  all_ranks.filter (fun n => n + 1 ∈ all_ranks ∧ n + 2 ∈ all_ranks)

/-- Embeds `Hand::check_chow` (include/Hand.hpp, lines 775-810): Winds
and Dragons are refused; hidden tiles of the discarded tile's suit
within rank distance 2 contribute their ranks, and the check succeeds
when more than one chow-starting rank exists among them. -/
def check_chow (h : Hand) (tile : Tile) : Bool :=
  if tile.suit == 3 || tile.suit == 4 then false
  else
    let relevant := h.filter (fun t =>
      t.hidden && t.suit == tile.suit && (tile.rank - t.rank).natAbs ≤ 2)
    let all_ranks : Finset ℤ := (relevant.map (fun t => t.rank)).toFinset
    decide (1 < (find_chow_starter_ranks all_ranks).card)

/-- Embeds `Hand::check_available_actions` (include/Hand.hpp,
lines 827-845): a kong claim, else a pong claim, else a chow claim for
the seat right after the discarder, on the last discarded tile. -/
def check_available_actions (h : Hand) (discard_pile : List Tile)
    (player_number : ℕ) (current_player : ℕ) : List String :=
  let tile := Discard_pile.back discard_pile
  if check_kong h tile then ["kong"]
  else if check_pong h tile then ["pong"]
  else if check_chow h tile && (player_number == (current_player + 1) % 4) then ["chow"]
  else []

/-- The elements of a candidate meld in ascending order — the iteration
order of the C++ `std::set<int>`.  A meld's indices always lie below the
hand size, so filtering the index range enumerates exactly the set (and
keeps the definition reducible by the kernel, unlike `Finset.sort`). -/
def combAsc (h : Hand) (combination : Finset ℕ) : List ℕ :=
  (List.range h.length).filter (fun i => i ∈ combination)

/-- Embeds `Hand::get_combination_type` (include/Hand.hpp,
lines 860-876): 2 tiles → pair (0), 4 tiles → kong (3), 3 tiles with the
first two ranks equal → pong (2), otherwise chow (1).  `std::set`
iterates in ascending order, so the first two elements are the two
smallest indices. -/
def get_combination_type (h : Hand) (combination : Finset ℕ) : ℤ :=
  if combination.card = 2 then 0
  else if combination.card = 4 then 3
  else
    let l := combAsc h combination
    if (tileAt h (l.getD 0 0)).rank == (tileAt h (l.getD 1 0)).rank then 2 else 1

/-- Embeds `Hand::get_combination_score` (include/Hand.hpp,
lines 976-1022): visibility class is 1 when all tiles agree (all hidden
or all open) and 2 when mixed; wind-relevance counts matches of a
Wind-suit pong/kong's rank against the round and seat winds. -/
def get_combination_score (h : Hand) (combination : Finset ℕ)
    (round_wind seat_wind : ℤ) : ℤ × ℤ :=
  let type := get_combination_type h combination
  let l := combAsc h combination
  let suit := (tileAt h (l.getD 0 0)).suit
  let all_visibilities : Finset ℕ :=
    (l.map (fun i => if (tileAt h i).hidden then 1 else 0)).toFinset
  let visibility : ℤ :=
    if 0 ∉ all_visibilities then 1
    else if 1 ∉ all_visibilities then 1
    else 2
  let wind : ℤ :=
    if suit == 3 && type > 1 then
      let combination_wind := (tileAt h (l.getD 0 0)).rank
      (if combination_wind == round_wind then 1 else 0)
        + (if combination_wind == seat_wind then 1 else 0)
    else 0
  score_table4 type suit visibility wind

/-- Embeds the loop of `Hand::get_score_recursive` (include/Hand.hpp,
lines 919-962).  `get_score_loop fuel i used acc` runs the `for` loop
from index `i` with `fuel = combos.length - i` iterations left and
accumulator `acc` (the C++ local `(max_sum, max_multiplier_sum)`,
initialized to `(0, cms)`); a recursive call at a non-overlapping
combination restarts the loop at `i + 1` with a fresh accumulator. -/
def get_score_loop (h : Hand) (combos : List (Finset ℕ))
    (round_wind seat_wind cms : ℤ) :
    ℕ → ℕ → Finset ℕ → ℤ × ℤ → ℤ × ℤ
  | 0, _, _, acc => acc
  | cnt + 1, i, used, acc =>
    let c := combos.getD i ∅
    if (c ∩ used).card ≠ 0 then
      get_score_loop h combos round_wind seat_wind cms cnt (i + 1) used acc
    else
      let cs := get_combination_score h c round_wind seat_wind
      let ns := get_score_loop h combos round_wind seat_wind cms cnt (i + 1) (used ∪ c) (0, cms)
      let acc2 := if ns.1 + cs.1 > acc.1 then (ns.1 + cs.1, ns.2 + cs.2) else acc
      get_score_loop h combos round_wind seat_wind cms cnt (i + 1) used acc2

/-- Embeds `Hand::get_max_score` (include/Hand.hpp, lines 889-902): the
recursive search over all combinations starting with nothing used. -/
def get_max_score (h : Hand) (round_wind seat_wind : ℤ) : ℤ × ℤ :=
  let combos := get_combinations h
  get_score_loop h combos round_wind seat_wind 0 combos.length 0 ∅ (0, 0)

/-- Embeds `Hand::get_visible_score` (include/Hand.hpp,
lines 1034-1045): the maximum score of the visible tiles alone. -/
def get_visible_score (h : Hand) (round_wind seat_wind : ℤ) : ℤ × ℤ :=
  get_max_score (h.filter (fun t => !t.hidden)) round_wind seat_wind

/-- Embeds `Hand::get_all_suits` (include/Hand.hpp, lines 1122-1130). -/
def get_all_suits (h : Hand) : Finset ℤ :=
  (h.map (fun t => t.suit)).toFinset

/-- Embeds `Hand::get_all_ranks` (include/Hand.hpp, lines 1137-1148):
ranks of the tiles whose suit is below 3 (Wind and Dragon ignored). -/
def get_all_ranks (h : Hand) : Finset ℤ :=
  ((h.filter (fun t => t.suit < 3)).map (fun t => t.rank)).toFinset

/-- Embeds `Player::get_player_score` (include/Player.hpp,
lines 226-286): the hand's maximum (or visible-only) score pair; when
`mahjong` is set, +20 base for the declaration, +20 base for a fully
concealed hand, and multiplier bonuses for single-suit and
terminal-rank-only hands.  `all_suits[0]` reads the least element, as a
vector built from a `std::set` is ascending. -/
def Player.get_player_score (h : Hand) (round_wind seat_wind : ℤ)
    (full_hand mahjong : Bool) : ℤ × ℤ :=
  let score :=
    if full_hand then get_max_score h round_wind seat_wind
    else get_visible_score h round_wind seat_wind
  if !mahjong then score
  else
    let base := score.1 + 20
    let base := if (get_hidden_hand h).length = h.length then base + 20 else base
    let all_suits := get_all_suits h
    let mult := score.2
    let mult :=
      if all_suits.card = 1 then
        if all_suits.min.untop' 0 < 3 then mult + 3 else mult + 4
      else mult
    let suits_erased := (all_suits.erase 3).erase 4
    let mult := if suits_erased.card = 1 then mult + 2 else mult
    let all_ranks := get_all_ranks h
    let mult :=
      if all_ranks.card = 1
          && (all_ranks.min.untop' 0 == 0 || all_ranks.min.untop' 0 == 8) then mult + 4
      else mult
    (base, mult)

/-- Embeds `Game::get_player_score` (include/Game.hpp, lines 327-335):
the player's score pair is taken WITHOUT the mahjong bonuses (two-argument
call), 20 is added to the base when mahjong is declared, and the sum is
then multiplied by `2^multiplier`. -/
def Game.get_player_score (h : Hand) (round_wind seat_wind : ℤ)
    (full_hand mahjong : Bool) : ℤ :=
  let s := Player.get_player_score h round_wind seat_wind full_hand false
  let score := s.1 + (if mahjong then 20 else 0)
  score * 2 ^ s.2.toNat

/-- Embeds `Game::add_final_score` (include/Game.hpp, lines 502-515):
the player's full-hand score pair with mahjong bonuses, multiplied out,
capped at 3000, and accumulated into that player's running score. -/
def Game.add_final_score (scores : List ℤ) (player_number : ℕ) (h : Hand)
    (round_wind seat_wind : ℤ) (mahjong : Bool) : List ℤ :=
  let s := Player.get_player_score h round_wind seat_wind true mahjong
  let total0 := s.1 * 2 ^ s.2.toNat
  let total := if total0 > 3000 then 3000 else total0
  scores.set player_number (scores.getD player_number 0 + total)

/-- A 14-tile hand used in several concrete evaluations: a hidden pong
of Red Dragons, three Circles chows and a Bamboos pair — a winning hand
whose maximum score pair is `(16, 1)` (the hidden Dragon pong). -/
def dragonPongHand : Hand :=
  [⟨4, 0, true⟩, ⟨4, 0, true⟩, ⟨4, 0, true⟩,
   ⟨0, 1, true⟩, ⟨0, 2, true⟩, ⟨0, 3, true⟩,
   ⟨0, 4, true⟩, ⟨0, 5, true⟩, ⟨0, 6, true⟩,
   ⟨0, 7, true⟩, ⟨0, 8, true⟩, ⟨0, 9, true⟩,
   ⟨1, 5, true⟩, ⟨1, 5, true⟩]

end Mahjong

namespace DLX

/- Embedding of `DLX::exact_cover_solver` (dlx_exact_cover_solver.hpp).

`find_exact_covers(sets)` builds a 14-column toroidal matrix
(`n_col = 14`, line 362) with one row per input set and one node per set
element: `create_toridol_matrix` links nodes for columns `0 ≤ j < 14`
only, so set elements `≥ 14` are never linked into the matrix and are
invisible to the search.  We therefore model a row by its clipped
element set, and model the live matrix of a search state by the set of
live (still linked) column headers: a row is live exactly when none of
its columns has been covered, i.e. when its clipped set is contained in
the live columns, and a column's `node_count` is the number of live rows
holding it.

One genuine partial operation remains.  `get_min_column` scans the
circular column list starting from `header->right->right`; when exactly
one column is left this start IS the header sentinel itself, whose
`node_count` is 0 and whose `column` pointer is null.  If the single
remaining column has a positive count, the sentinel wins the strict
minimum comparison, is returned as the "column", and `cover` immediately
dereferences its null `column` pointer — undefined behaviour, modelled
as `none`.  With two or more columns the scan stops before the header
and this cannot happen.
-/

/-- The elements of a row that are actually linked into the 14-column
matrix (column indices `0..13`). -/
def clipRow (r : Finset ℕ) : Finset ℕ := r.filter (· < 14)

/-- Row `i` of the input, the empty set out of range. -/
def rowAt (rows : List (Finset ℕ)) (i : ℕ) : Finset ℕ := rows.getD i ∅

/-- The linked elements of row `i`. -/
def clipAt (rows : List (Finset ℕ)) (i : ℕ) : Finset ℕ := clipRow (rowAt rows i)

/-- The live rows holding column `c`, in increasing row order — exactly
the rows traversed by `search`'s walk down column `c`'s linked list. -/
def colCandidates (rows : List (Finset ℕ)) (liveCols : Finset ℕ) (c : ℕ) : List ℕ :=
  (List.range rows.length).filter
    (fun i => decide (c ∈ clipAt rows i) && decide (clipAt rows i ⊆ liveCols))

/-- Column `c`'s `node_count`: the number of live rows holding it. -/
def colCount (rows : List (Finset ℕ)) (liveCols : Finset ℕ) (c : ℕ) : ℕ :=
  (colCandidates rows liveCols c).length

/-- Embeds `exact_cover_solver::get_min_column` (lines 254-269).  The
live columns sit in the circular header list in increasing column order
(the matrix has columns `0..13`, enumerated here by filtering the column
range).  With a single live column the do-while body compares the
header sentinel (count 0) against it, so a positive count selects the
sentinel — the undefined-behaviour case, `none`.  With at least two
columns the scan covers exactly the live columns, first minimum
winning. -/
def getMinColumn (rows : List (Finset ℕ)) (liveCols : Finset ℕ) : Option ℕ :=
  match (List.range 14).filter (fun j => j ∈ liveCols) with
  | [] => none
  | [c] => if 0 < colCount rows liveCols c then none else some c
  | c :: d :: rest =>
    some ((d :: rest).foldl
      (fun best x => if colCount rows liveCols x < colCount rows liveCols best then x else best) c)

/-- Embeds `exact_cover_solver::search` (lines 302-347) on the abstract
state (live columns, selected rows).  An empty matrix records the
current selection; otherwise the minimum column is chosen (possibly the
undefined-behaviour sentinel, `none`) and each live row holding it is
tried in turn — cover its columns, recurse, uncover — collecting the
recorded solutions in order.  `fuel` only bounds the recursion depth for
Lean's termination checker; every level removes at least one live
column, so any `fuel > liveCols.card` behaves identically (see
`searchF_spec`). -/
def searchF (rows : List (Finset ℕ)) : ℕ → Finset ℕ → Finset ℕ → Option (List (Finset ℕ))
  | 0, _, _ => none
  | fuel + 1, liveCols, selected =>
    if liveCols = ∅ then some [selected]
    else
      match getMinColumn rows liveCols with
      | none => none
      | some c =>
        (colCandidates rows liveCols c).foldr
          (fun i acc => do
            let xs ← searchF rows fuel (liveCols \ clipAt rows i) (insert i selected)
            let ys ← acc
            pure (xs ++ ys))
          (some [])

/-- Embeds `exact_cover_solver::find_exact_covers` (lines 354-393): all
14 column headers are created unconditionally (`prob_matrix[0][j] =
true`), so the search starts from the full column set; solutions are
reported as sets of 0-based row indices (`row_id - 1`).  The fuel 15
exceeds the 14 possible levels of the search, so it is never
exhausted. -/
def find_exact_covers (sets : List (Finset ℕ)) : Option (List (Finset ℕ)) :=
  searchF sets 15 (Finset.range 14) ∅

/-- Specification side of the search: `S` extends the current selection
into a solution of the residual matrix — it contains `selected`, and the
extra rows are live rows of the state `(liveCols)` that partition the
live columns exactly. -/
def IsCoverExt (rows : List (Finset ℕ)) (liveCols selected S : Finset ℕ) : Prop :=
  selected ⊆ S ∧
  (∀ i ∈ S \ selected,
    i < rows.length ∧ (clipAt rows i).Nonempty ∧ clipAt rows i ⊆ liveCols) ∧
  (∀ i ∈ S \ selected, ∀ j ∈ S \ selected, i ≠ j →
    Disjoint (clipAt rows i) (clipAt rows j)) ∧
  (S \ selected).biUnion (clipAt rows) = liveCols

/-- Specification side of `find_exact_covers`: `S` is a set of row
indices whose rows exactly partition the 14 columns. -/
def IsExactCover (rows : List (Finset ℕ)) (S : Finset ℕ) : Prop :=
  (∀ i ∈ S, i < rows.length) ∧
  (∀ i ∈ S, ∀ j ∈ S, i ≠ j → Disjoint (rowAt rows i) (rowAt rows j)) ∧
  S.biUnion (rowAt rows) = Finset.range 14

end DLX

namespace Mahjong

/-- Embeds `Hand::is_winning_hand` (include/Hand.hpp, lines 323-383):
14 tiles, at least one pair, at least 5 candidate combinations whose
union holds all 14 indices, and an exact cover of exactly 5
combinations at least one of which is a pair.  The `none` branch of the
solver is unreachable here (every meld has at least two indices, see
`no_crash` below); the C++ would crash there, and `false` is never
exercised. -/
def is_winning_hand (h : Hand) : Bool :=
  if h.length ≠ 14 then false
  else if (get_pairs h).length = 0 then false
  else
    let combinations := get_combinations h
    if combinations.length < 5 then false
    else
      let used_tiles := combinations.foldl (fun acc c => acc ∪ c) ∅
      if used_tiles.card ≠ 14 then false
      else
        match DLX.find_exact_covers combinations with
        | none => false
        | some covers =>
          covers.any (fun cover =>
            cover.card == 5
              && decide (∃ index ∈ cover, (combinations.getD index ∅).card = 2))

end Mahjong

/- ------------------------------------------------------------------ -/
/- Theorems.  First the Dancing-Links development: soundness and      -/
/- completeness of the abstract search, and the behaviour of its      -/
/- undefined-behaviour corner.                                        -/
/- ------------------------------------------------------------------ -/

namespace DLX

theorem foldl_pick_mem (f : ℕ → ℕ) :
    ∀ (l : List ℕ) (c : ℕ),
      l.foldl (fun best x => if f x < f best then x else best) c ∈ c :: l := by
  intro l
  induction l with
  | nil => intro c; simp
  | cons x xs ih =>
    intro c
    have h := ih (if f x < f c then x else c)
    simp only [List.foldl_cons]
    by_cases hfx : f x < f c
    · rw [if_pos hfx] at h ⊢
      rcases List.mem_cons.mp h with h1 | h1
      · rw [h1]; simp
      · simp [h1]
    · rw [if_neg hfx] at h ⊢
      rcases List.mem_cons.mp h with h1 | h1
      · rw [h1]; simp
      · simp [h1]

theorem mem_colCandidates {rows : List (Finset ℕ)} {liveCols : Finset ℕ} {c i : ℕ} :
    i ∈ colCandidates rows liveCols c ↔
      i < rows.length ∧ c ∈ clipAt rows i ∧ clipAt rows i ⊆ liveCols := by
  simp [colCandidates, List.mem_filter, and_assoc]

theorem getMinColumn_mem {rows : List (Finset ℕ)} {liveCols : Finset ℕ} {c : ℕ}
    (h : getMinColumn rows liveCols = some c) : c ∈ liveCols := by
  unfold getMinColumn at h
  rcases hL : (List.range 14).filter (fun j => decide (j ∈ liveCols)) with _ | ⟨a, _ | ⟨b, rest⟩⟩
  · rw [hL] at h; simp at h
  · rw [hL] at h
    simp only at h
    have ha : a ∈ (List.range 14).filter (fun j => decide (j ∈ liveCols)) := by
      rw [hL]; simp
    by_cases h0 : 0 < colCount rows liveCols a
    · rw [if_pos h0] at h; simp at h
    · rw [if_neg h0] at h
      obtain rfl : a = c := Option.some.inj h
      exact of_decide_eq_true (List.mem_filter.mp ha).2
  · rw [hL] at h
    simp only [Option.some.injEq] at h
    have hmem := foldl_pick_mem (colCount rows liveCols) (b :: rest) a
    rw [h] at hmem
    have : c ∈ (List.range 14).filter (fun j => decide (j ∈ liveCols)) := by
      rw [hL]; exact hmem
    exact of_decide_eq_true (List.mem_filter.mp this).2

theorem getMinColumn_ne_none {rows : List (Finset ℕ)} {liveCols : Finset ℕ}
    (hsub : liveCols ⊆ Finset.range 14) (hne : liveCols.Nonempty)
    (Hrows : ∀ i, i < rows.length → (clipAt rows i).card ≠ 1) :
    ∃ c, getMinColumn rows liveCols = some c := by
  have hmemfilter : ∀ x ∈ liveCols,
      x ∈ (List.range 14).filter (fun j => decide (j ∈ liveCols)) := by
    intro x hx
    simp only [List.mem_filter, List.mem_range, decide_eq_true_eq]
    exact ⟨Finset.mem_range.mp (hsub hx), hx⟩
  unfold getMinColumn
  rcases hL : (List.range 14).filter (fun j => decide (j ∈ liveCols)) with _ | ⟨a, tail⟩
  · exfalso
    obtain ⟨x, hx⟩ := hne
    have := hmemfilter x hx
    rw [hL] at this
    simp at this
  rcases tail with _ | ⟨b, rest⟩
  · by_cases h0 : 0 < colCount rows liveCols a
    · exfalso
      have hsingle : liveCols = {a} := by
        ext x
        simp only [Finset.mem_singleton]
        constructor
        · intro hx
          have := hmemfilter x hx
          rw [hL] at this
          simpa using this
        · intro hx
          rw [hx]
          have : a ∈ (List.range 14).filter (fun j => decide (j ∈ liveCols)) := by
            rw [hL]; simp
          exact of_decide_eq_true (List.mem_filter.mp this).2
      obtain ⟨i, hi⟩ : ∃ i, i ∈ colCandidates rows liveCols a := by
        rcases hcand : colCandidates rows liveCols a with _ | ⟨i, t⟩
        · rw [colCount, hcand] at h0; simp at h0
        · exact ⟨i, List.mem_cons_self i t⟩
      obtain ⟨hilen, hmem, hsubc⟩ := mem_colCandidates.mp hi
      have hclip : clipAt rows i = {a} := by
        apply Finset.Subset.antisymm
        · rw [← hsingle]; exact hsubc
        · intro x hx
          rcases Finset.mem_singleton.mp hx with rfl
          exact hmem
      exact Hrows i hilen (by rw [hclip]; simp)
    · refine ⟨a, ?_⟩
      show (if 0 < colCount rows liveCols a then none else some a) = some a
      rw [if_neg h0]
  · exact ⟨_, rfl⟩

theorem sdiff_insert_eq (S T : Finset ℕ) (a : ℕ) :
    S \ insert a T = (S \ T).erase a := by
  ext x
  simp only [Finset.mem_sdiff, Finset.mem_erase, Finset.mem_insert]
  tauto

theorem searchFold_spec (step : ℕ → Option (List (Finset ℕ))) (P : ℕ → Finset ℕ → Prop) :
    ∀ (L : List ℕ),
    (∀ i ∈ L, ∃ out, step i = some out ∧ ∀ S, S ∈ out ↔ P i S) →
    ∃ out,
      (L.foldr (fun i acc => do
          let xs ← step i
          let ys ← acc
          pure (xs ++ ys)) (some [])) = some out ∧
      ∀ S, S ∈ out ↔ ∃ i ∈ L, P i S := by
  intro L
  induction L with
  | nil => intro _; exact ⟨[], rfl, by simp⟩
  | cons i rest ih =>
    intro hyp
    obtain ⟨oi, hoi, hiffi⟩ := hyp i (List.mem_cons_self i rest)
    obtain ⟨orest, horest, hiffr⟩ := ih (fun j hj => hyp j (List.mem_cons_of_mem _ hj))
    refine ⟨oi ++ orest, ?_, ?_⟩
    · simp only [List.foldr_cons]
      rw [hoi, horest]
      rfl
    · intro S
      simp only [List.mem_append, hiffi S, hiffr S, List.mem_cons, exists_eq_or_imp]

theorem cover_step {rows : List (Finset ℕ)} {liveCols selected : Finset ℕ} {c : ℕ}
    (hc : c ∈ liveCols)
    (Hsel : ∀ i ∈ selected, Disjoint (clipAt rows i) liveCols) (S : Finset ℕ) :
    IsCoverExt rows liveCols selected S ↔
      ∃ i ∈ colCandidates rows liveCols c,
        IsCoverExt rows (liveCols \ clipAt rows i) (insert i selected) S := by
  constructor
  · rintro ⟨hsub, hlive, hdisj, hcover⟩
    have hc' : c ∈ (S \ selected).biUnion (clipAt rows) := by rw [hcover]; exact hc
    obtain ⟨i0, hi0S, hi0c⟩ := Finset.mem_biUnion.mp hc'
    obtain ⟨hi0len, hi0ne, hi0sub⟩ := hlive i0 hi0S
    refine ⟨i0, mem_colCandidates.mpr ⟨hi0len, hi0c, hi0sub⟩, ?_, ?_, ?_, ?_⟩
    · exact Finset.insert_subset (Finset.mem_sdiff.mp hi0S).1 hsub
    · intro j hj
      rw [sdiff_insert_eq] at hj
      have hjne := Finset.ne_of_mem_erase hj
      have hjS := Finset.mem_of_mem_erase hj
      obtain ⟨hjlen, hjnemp, hjsub⟩ := hlive j hjS
      refine ⟨hjlen, hjnemp, ?_⟩
      intro x hx
      rw [Finset.mem_sdiff]
      exact ⟨hjsub hx, fun hxi0 =>
        Finset.disjoint_left.mp (hdisj j hjS i0 hi0S hjne) hx hxi0⟩
    · intro j hj k hk hne
      rw [sdiff_insert_eq] at hj hk
      exact hdisj j (Finset.mem_of_mem_erase hj) k (Finset.mem_of_mem_erase hk) hne
    · rw [sdiff_insert_eq]
      ext x
      simp only [Finset.mem_biUnion, Finset.mem_erase]
      constructor
      · rintro ⟨j, ⟨hjne, hjS⟩, hxj⟩
        rw [Finset.mem_sdiff]
        refine ⟨?_, ?_⟩
        · rw [← hcover]
          exact Finset.mem_biUnion.mpr ⟨j, hjS, hxj⟩
        · exact fun hxi0 =>
            Finset.disjoint_left.mp (hdisj j hjS i0 hi0S hjne) hxj hxi0
      · intro hx
        obtain ⟨hxl, hxni⟩ := Finset.mem_sdiff.mp hx
        have : x ∈ (S \ selected).biUnion (clipAt rows) := by rw [hcover]; exact hxl
        obtain ⟨j, hjS, hxj⟩ := Finset.mem_biUnion.mp this
        have hjne : j ≠ i0 := fun hji => hxni (hji ▸ hxj)
        exact ⟨j, ⟨hjne, hjS⟩, hxj⟩
  · rintro ⟨i, hi, hsub', hlive', hdisj', hcover'⟩
    obtain ⟨hilen, hic, hisub⟩ := mem_colCandidates.mp hi
    have hinotsel : i ∉ selected := fun hmem =>
      Finset.disjoint_left.mp (Hsel i hmem) hic hc
    have hkey : S \ selected = insert i (S \ insert i selected) := by
      ext x
      simp only [Finset.mem_sdiff, Finset.mem_insert]
      constructor
      · rintro ⟨hxS, hxns⟩
        by_cases hxi : x = i
        · exact Or.inl hxi
        · exact Or.inr ⟨hxS, fun hor => hor.elim (fun hh => hxi hh) (fun hh => hxns hh)⟩
      · rintro (hxi | ⟨hxS, hxnotins⟩)
        · rw [hxi]
          exact ⟨hsub' (Finset.mem_insert_self i selected), hinotsel⟩
        · exact ⟨hxS, fun hxsel => hxnotins (Or.inr hxsel)⟩
    refine ⟨(Finset.subset_insert i selected).trans hsub', ?_, ?_, ?_⟩
    · intro j hj
      rw [hkey] at hj
      rcases Finset.mem_insert.mp hj with rfl | hj'
      · exact ⟨hilen, ⟨c, hic⟩, hisub⟩
      · obtain ⟨hl, hn, hs⟩ := hlive' j hj'
        exact ⟨hl, hn, hs.trans (Finset.sdiff_subset)⟩
    · intro j hj k hk hne
      rw [hkey] at hj hk
      rcases Finset.mem_insert.mp hj with rfl | hj' <;>
        rcases Finset.mem_insert.mp hk with rfl | hk'
      · exact absurd rfl hne
      · have hks := (hlive' k hk').2.2
        exact Finset.disjoint_left.mpr
          (fun x hx hxk => (Finset.mem_sdiff.mp (hks hxk)).2 hx)
      · have hjs := (hlive' j hj').2.2
        exact Finset.disjoint_left.mpr
          (fun x hx hxk => absurd hx (fun hx' => (Finset.mem_sdiff.mp (hjs hx')).2 hxk))
      · exact hdisj' j hj' k hk' hne
    · rw [hkey, Finset.biUnion_insert, hcover']
      exact Finset.union_sdiff_of_subset hisub

theorem searchF_spec (rows : List (Finset ℕ))
    (Hrows : ∀ i, i < rows.length → (clipAt rows i).card ≠ 1) :
    ∀ (fuel : ℕ) (liveCols selected : Finset ℕ), liveCols.card < fuel →
    liveCols ⊆ Finset.range 14 →
    (∀ i ∈ selected, Disjoint (clipAt rows i) liveCols) →
    ∃ out, searchF rows fuel liveCols selected = some out ∧
      ∀ S, S ∈ out ↔ IsCoverExt rows liveCols selected S := by
  intro fuel
  induction fuel with
  | zero => intro liveCols selected hcard; omega
  | succ fuel IH =>
    intro liveCols selected hcard hsub14 hsel
    by_cases hemp : liveCols = ∅
    · subst hemp
      refine ⟨[selected], by simp [searchF], ?_⟩
      intro S
      simp only [List.mem_singleton]
      constructor
      · rintro rfl
        exact ⟨Finset.Subset.refl _, by simp, by simp, by simp⟩
      · rintro ⟨hsubS, hlive, _, _⟩
        have hdiff : S \ selected = ∅ := by
          by_contra hne
          obtain ⟨j, hj⟩ := Finset.nonempty_iff_ne_empty.mpr hne
          obtain ⟨_, hne', hsubj⟩ := hlive j hj
          obtain ⟨x, hx⟩ := hne'
          exact absurd (hsubj hx) (Finset.not_mem_empty x)
        exact Finset.Subset.antisymm (Finset.sdiff_eq_empty_iff_subset.mp hdiff) hsubS
    · obtain ⟨c, hcmin⟩ :=
        getMinColumn_ne_none hsub14 (Finset.nonempty_iff_ne_empty.mpr hemp) Hrows
      have hc := getMinColumn_mem hcmin
      have hstep : ∀ i ∈ colCandidates rows liveCols c,
          ∃ out,
            searchF rows fuel (liveCols \ clipAt rows i) (insert i selected) = some out ∧
            ∀ S, S ∈ out ↔ IsCoverExt rows (liveCols \ clipAt rows i) (insert i selected) S := by
        intro i hi
        obtain ⟨hilen, hic, hisub⟩ := mem_colCandidates.mp hi
        apply IH
        · have hss : liveCols \ clipAt rows i ⊂ liveCols :=
            Finset.sdiff_ssubset hisub ⟨c, hic⟩
          have := Finset.card_lt_card hss
          omega
        · exact Finset.Subset.trans (Finset.sdiff_subset) hsub14
        · intro j hj
          rcases Finset.mem_insert.mp hj with rfl | hjsel
          · exact Finset.disjoint_sdiff
          · exact Finset.disjoint_of_subset_right (Finset.sdiff_subset) (hsel j hjsel)
      obtain ⟨out, hout, hiff⟩ :=
        searchFold_spec
          (fun i => searchF rows fuel (liveCols \ clipAt rows i) (insert i selected))
          (fun i S => IsCoverExt rows (liveCols \ clipAt rows i) (insert i selected) S)
          (colCandidates rows liveCols c) hstep
      refine ⟨out, ?_, ?_⟩
      · show searchF rows (fuel + 1) liveCols selected = some out
        rw [searchF]
        rw [if_neg hemp, hcmin]
        exact hout
      · intro S
        rw [hiff S]
        exact (cover_step hc hsel S).symm

theorem rowAt_mem {rows : List (Finset ℕ)} {i : ℕ} (hi : i < rows.length) :
    rowAt rows i ∈ rows := by
  rw [rowAt, List.getD_eq_getElem?_getD, List.getElem?_eq_getElem hi]
  exact List.getElem_mem hi

theorem clipAt_eq_rowAt {rows : List (Finset ℕ)}
    (h1 : ∀ r ∈ rows, ∀ x ∈ r, x < 14) {i : ℕ} (hi : i < rows.length) :
    clipAt rows i = rowAt rows i := by
  rw [clipAt, clipRow]
  exact Finset.filter_true_of_mem (fun x hx => h1 _ (rowAt_mem hi) x hx)

theorem exact_covers_spec (rows : List (Finset ℕ))
    (h1 : ∀ r ∈ rows, ∀ x ∈ r, x < 14) (h2 : ∀ r ∈ rows, 2 ≤ r.card) :
    ∃ out, find_exact_covers rows = some out ∧
      ∀ S, S ∈ out ↔ IsExactCover rows S := by
  have Hrows : ∀ i, i < rows.length → (clipAt rows i).card ≠ 1 := by
    intro i hi
    rw [clipAt_eq_rowAt h1 hi]
    have := h2 _ (rowAt_mem hi)
    omega
  obtain ⟨out, hout, hiff⟩ :=
    searchF_spec rows Hrows 15 (Finset.range 14) ∅ (by simp) (Finset.Subset.refl _)
      (by simp)
  refine ⟨out, hout, fun S => (hiff S).trans ?_⟩
  constructor
  · rintro ⟨_, hlive, hdisj, hcover⟩
    rw [Finset.sdiff_empty] at hlive hdisj hcover
    refine ⟨fun i hi => (hlive i hi).1, ?_, ?_⟩
    · intro i hi j hj hne
      have := hdisj i hi j hj hne
      rwa [clipAt_eq_rowAt h1 (hlive i hi).1, clipAt_eq_rowAt h1 (hlive j hj).1] at this
    · rw [← hcover]
      apply Finset.biUnion_congr rfl
      intro i hi
      exact (clipAt_eq_rowAt h1 (hlive i hi).1).symm
  · rintro ⟨hbound, hdisj, hcover⟩
    refine ⟨Finset.empty_subset _, ?_, ?_, ?_⟩
    · rw [Finset.sdiff_empty]
      intro i hi
      refine ⟨hbound i hi, ?_, ?_⟩
      · rw [clipAt_eq_rowAt h1 (hbound i hi)]
        have := h2 _ (rowAt_mem (hbound i hi))
        exact Finset.card_pos.mp (by omega)
      · rw [clipAt_eq_rowAt h1 (hbound i hi)]
        intro x hx
        exact Finset.mem_range.mpr (h1 _ (rowAt_mem (hbound i hi)) x hx)
    · rw [Finset.sdiff_empty]
      intro i hi j hj hne
      rw [clipAt_eq_rowAt h1 (hbound i hi), clipAt_eq_rowAt h1 (hbound j hj)]
      exact hdisj i hi j hj hne
    · rw [Finset.sdiff_empty, ← hcover]
      apply Finset.biUnion_congr rfl
      intro i hi
      exact clipAt_eq_rowAt h1 (hbound i hi)

theorem clipAt_map_clipRow (rows : List (Finset ℕ)) (i : ℕ) :
    clipAt (rows.map clipRow) i = clipAt rows i := by
  by_cases hi : i < rows.length
  · have hi' : i < (rows.map clipRow).length := by rw [List.length_map]; omega
    rw [clipAt, clipAt, rowAt, rowAt, List.getD_eq_getElem _ _ hi',
      List.getD_eq_getElem _ _ hi, List.getElem_map]
    show clipRow (clipRow rows[i]) = clipRow rows[i]
    rw [clipRow, clipRow, Finset.filter_filter]
    simp
  · have h1' : (rows.map clipRow).getD i ∅ = ∅ :=
      List.getD_eq_default _ _ (by rw [List.length_map]; omega)
    have h2' : rows.getD i ∅ = ∅ := List.getD_eq_default _ _ (by omega)
    rw [clipAt, clipAt, rowAt, rowAt, h1', h2']

theorem getMinColumn_nil {rows : List (Finset ℕ)} {liveCols : Finset ℕ}
    (h : (List.range 14).filter (fun j => decide (j ∈ liveCols)) = []) :
    getMinColumn rows liveCols = none := by
  unfold getMinColumn; rw [h]

theorem getMinColumn_single {rows : List (Finset ℕ)} {liveCols : Finset ℕ} {a : ℕ}
    (h : (List.range 14).filter (fun j => decide (j ∈ liveCols)) = [a]) :
    getMinColumn rows liveCols
      = if 0 < colCount rows liveCols a then none else some a := by
  unfold getMinColumn; rw [h]

theorem getMinColumn_cons {rows : List (Finset ℕ)} {liveCols : Finset ℕ}
    {a b : ℕ} {rest : List ℕ}
    (h : (List.range 14).filter (fun j => decide (j ∈ liveCols)) = a :: b :: rest) :
    getMinColumn rows liveCols
      = some ((b :: rest).foldl
          (fun best x =>
            if colCount rows liveCols x < colCount rows liveCols best then x else best) a) := by
  unfold getMinColumn; rw [h]

theorem searchF_succ_none {rows : List (Finset ℕ)} {liveCols selected : Finset ℕ}
    {fuel : ℕ} (hemp : ¬ liveCols = ∅) (hgm : getMinColumn rows liveCols = none) :
    searchF rows (fuel + 1) liveCols selected = none := by
  rw [searchF, if_neg hemp, hgm]

theorem searchF_succ_some {rows : List (Finset ℕ)} {liveCols selected : Finset ℕ}
    {fuel c : ℕ} (hemp : ¬ liveCols = ∅) (hgm : getMinColumn rows liveCols = some c) :
    searchF rows (fuel + 1) liveCols selected =
      (colCandidates rows liveCols c).foldr
        (fun i acc => do
          let xs ← searchF rows fuel (liveCols \ clipAt rows i) (insert i selected)
          let ys ← acc
          pure (xs ++ ys))
        (some []) := by
  rw [searchF, if_neg hemp, hgm]

theorem searchF_map_clipRow (rows : List (Finset ℕ)) :
    ∀ (fuel : ℕ) (liveCols selected : Finset ℕ),
      searchF (rows.map clipRow) fuel liveCols selected
        = searchF rows fuel liveCols selected := by
  have hlen : (rows.map clipRow).length = rows.length := List.length_map _ _
  have hcand : ∀ liveCols c,
      colCandidates (rows.map clipRow) liveCols c = colCandidates rows liveCols c := by
    intro liveCols c
    rw [colCandidates, colCandidates, hlen]
    apply List.filter_congr
    intro i _
    rw [clipAt_map_clipRow]
  have hcount : ∀ liveCols c,
      colCount (rows.map clipRow) liveCols c = colCount rows liveCols c := by
    intro liveCols c
    rw [colCount, colCount, hcand]
  have hmin : ∀ liveCols,
      getMinColumn (rows.map clipRow) liveCols = getMinColumn rows liveCols := by
    intro liveCols
    rcases hfil : (List.range 14).filter (fun j => decide (j ∈ liveCols))
      with _ | ⟨a, _ | ⟨b, rest⟩⟩
    · rw [getMinColumn_nil hfil, getMinColumn_nil hfil]
    · rw [getMinColumn_single hfil, getMinColumn_single hfil, hcount]
    · rw [getMinColumn_cons hfil, getMinColumn_cons hfil]
      refine congrArg some ?_
      have hfold : ∀ (l : List ℕ) (c : ℕ),
          l.foldl (fun best x =>
            if colCount (rows.map clipRow) liveCols x
                < colCount (rows.map clipRow) liveCols best then x else best) c =
          l.foldl (fun best x =>
            if colCount rows liveCols x < colCount rows liveCols best then x else best) c := by
        intro l c
        simp only [hcount]
      exact hfold _ _
  intro fuel
  induction fuel with
  | zero => intro liveCols selected; rfl
  | succ fuel IH =>
    intro liveCols selected
    by_cases hemp : liveCols = ∅
    · rw [searchF, searchF, if_pos hemp, if_pos hemp]
    · rcases hgm : getMinColumn rows liveCols with _ | c
      · have hgm' : getMinColumn (rows.map clipRow) liveCols = none :=
          (hmin liveCols).trans hgm
        rw [searchF_succ_none hemp hgm', searchF_succ_none hemp hgm]
      · have hgm' : getMinColumn (rows.map clipRow) liveCols = some c :=
          (hmin liveCols).trans hgm
        rw [searchF_succ_some hemp hgm', searchF_succ_some hemp hgm, hcand]
        have hfoldr : ∀ (L : List ℕ),
            (L.foldr (fun i acc => do
                let xs ← searchF (rows.map clipRow) fuel
                  (liveCols \ clipAt (rows.map clipRow) i) (insert i selected)
                let ys ← acc
                pure (xs ++ ys)) (some [])) =
            (L.foldr (fun i acc => do
                let xs ← searchF rows fuel (liveCols \ clipAt rows i) (insert i selected)
                let ys ← acc
                pure (xs ++ ys)) (some [])) := by
          intro L
          induction L with
          | nil => rfl
          | cons i rest ihl =>
            simp only [List.foldr_cons, ihl, clipAt_map_clipRow, IH]
        exact hfoldr _

theorem find_exact_covers_map_clipRow (sets : List (Finset ℕ)) :
    find_exact_covers (sets.map clipRow) = find_exact_covers sets := by
  rw [find_exact_covers, find_exact_covers, searchF_map_clipRow]

end DLX

namespace Mahjong

theorem mem_get_pairs {h : Hand} {c : Finset ℕ} (hc : c ∈ get_pairs h) :
    ∃ i j, i < j ∧ j < h.length ∧ c = {i, j} := by
  simp only [get_pairs, List.mem_flatMap, List.mem_filterMap, List.mem_filter,
    List.mem_range, decide_eq_true_eq] at hc
  obtain ⟨i, hi, j, ⟨hj, hij⟩, hg⟩ := hc
  split at hg
  · exact ⟨i, j, hij, hj, (Option.some.inj hg).symm⟩
  · cases hg

theorem mem_get_chows {h : Hand} {c : Finset ℕ} (hc : c ∈ get_chows h) :
    ∃ i j k, i < j ∧ j < k ∧ k < h.length ∧ c = {i, j, k} := by
  simp only [get_chows, List.mem_flatMap, List.mem_filter, List.mem_range,
    decide_eq_true_eq] at hc
  obtain ⟨i, hi, hin⟩ := hc
  split at hin
  · cases hin
  · simp only [List.mem_flatMap, List.mem_filter, List.mem_range,
      decide_eq_true_eq] at hin
    obtain ⟨j, ⟨hj, hij⟩, hin2⟩ := hin
    split at hin2
    · cases hin2
    · simp only [List.mem_filterMap, List.mem_filter, List.mem_range,
        decide_eq_true_eq] at hin2
      obtain ⟨k, ⟨hk, hjk⟩, hg⟩ := hin2
      split at hg
      · cases hg
      · split at hg
        · exact ⟨i, j, k, hij, hjk, hk, (Option.some.inj hg).symm⟩
        · cases hg

theorem mem_get_pongs {h : Hand} {c : Finset ℕ} (hc : c ∈ get_pongs h) :
    ∃ i j k, i < j ∧ j < k ∧ k < h.length ∧ c = {i, j, k} := by
  simp only [get_pongs, List.mem_flatMap, List.mem_filterMap, List.mem_filter,
    List.mem_range, decide_eq_true_eq] at hc
  obtain ⟨i, hi, j, ⟨hj, hij⟩, k, ⟨hk, hjk⟩, hg⟩ := hc
  split at hg
  · exact ⟨i, j, k, hij, hjk, hk, (Option.some.inj hg).symm⟩
  · cases hg

theorem mem_get_kongs {h : Hand} {c : Finset ℕ} (hc : c ∈ get_kongs h) :
    ∃ i j k l, i < j ∧ j < k ∧ k < l ∧ l < h.length ∧ c = {i, j, k, l} := by
  simp only [get_kongs, List.mem_flatMap, List.mem_filterMap, List.mem_filter,
    List.mem_range, decide_eq_true_eq] at hc
  obtain ⟨i, hi, j, ⟨hj, hij⟩, k, ⟨hk, hjk⟩, l, ⟨hl, hkl⟩, hg⟩ := hc
  split at hg
  · exact ⟨i, j, k, l, hij, hjk, hkl, hl, (Option.some.inj hg).symm⟩
  · cases hg

theorem card_two_of_lt {i j : ℕ} (hij : i < j) : ({i, j} : Finset ℕ).card = 2 := by
  rw [Finset.card_insert_of_not_mem (by simp; omega), Finset.card_singleton]

theorem card_three_of_lt {i j k : ℕ} (hij : i < j) (hjk : j < k) :
    ({i, j, k} : Finset ℕ).card = 3 := by
  rw [Finset.card_insert_of_not_mem (by simp; omega),
    Finset.card_insert_of_not_mem (by simp; omega), Finset.card_singleton]

theorem card_four_of_lt {i j k l : ℕ} (hij : i < j) (hjk : j < k) (hkl : k < l) :
    ({i, j, k, l} : Finset ℕ).card = 4 := by
  rw [Finset.card_insert_of_not_mem (by simp; omega),
    Finset.card_insert_of_not_mem (by simp; omega),
    Finset.card_insert_of_not_mem (by simp; omega), Finset.card_singleton]

theorem get_combinations_card_ge {h : Hand} {c : Finset ℕ}
    (hc : c ∈ get_combinations h) : 2 ≤ c.card := by
  rw [get_combinations] at hc
  simp only [List.mem_append] at hc
  rcases hc with ((hp | hch) | hpo) | hk
  · obtain ⟨i, j, hij, _, rfl⟩ := mem_get_pairs hp
    rw [card_two_of_lt hij]
  · obtain ⟨i, j, k, hij, hjk, _, rfl⟩ := mem_get_chows hch
    rw [card_three_of_lt hij hjk]; omega
  · obtain ⟨i, j, k, hij, hjk, _, rfl⟩ := mem_get_pongs hpo
    rw [card_three_of_lt hij hjk]; omega
  · obtain ⟨i, j, k, l, hij, hjk, hkl, _, rfl⟩ := mem_get_kongs hk
    rw [card_four_of_lt hij hjk hkl]; omega

theorem get_combinations_bounds {h : Hand} {c : Finset ℕ}
    (hc : c ∈ get_combinations h) : ∀ x ∈ c, x < h.length := by
  rw [get_combinations] at hc
  simp only [List.mem_append] at hc
  rcases hc with ((hp | hch) | hpo) | hk
  · obtain ⟨i, j, hij, hj, rfl⟩ := mem_get_pairs hp
    intro x hx; simp at hx; omega
  · obtain ⟨i, j, k, hij, hjk, hk', rfl⟩ := mem_get_chows hch
    intro x hx; simp at hx; omega
  · obtain ⟨i, j, k, hij, hjk, hk', rfl⟩ := mem_get_pongs hpo
    intro x hx; simp at hx; omega
  · obtain ⟨i, j, k, l, hij, hjk, hkl, hl, rfl⟩ := mem_get_kongs hk
    intro x hx; simp at hx; omega

theorem card_two_mem_pairs {h : Hand} {c : Finset ℕ}
    (hc : c ∈ get_combinations h) (h2 : c.card = 2) : c ∈ get_pairs h := by
  rw [get_combinations] at hc
  simp only [List.mem_append] at hc
  rcases hc with ((hp | hch) | hpo) | hk
  · exact hp
  · obtain ⟨i, j, k, hij, hjk, _, rfl⟩ := mem_get_chows hch
    rw [card_three_of_lt hij hjk] at h2; omega
  · obtain ⟨i, j, k, hij, hjk, _, rfl⟩ := mem_get_pongs hpo
    rw [card_three_of_lt hij hjk] at h2; omega
  · obtain ⟨i, j, k, l, hij, hjk, hkl, _, rfl⟩ := mem_get_kongs hk
    rw [card_four_of_lt hij hjk hkl] at h2; omega

theorem mem_foldl_union (l : List (Finset ℕ)) :
    ∀ (init : Finset ℕ) (x : ℕ),
      (x ∈ l.foldl (fun acc c => acc ∪ c) init ↔ x ∈ init ∨ ∃ c ∈ l, x ∈ c) := by
  induction l with
  | nil => intro init x; simp
  | cons d rest ih =>
    intro init x
    rw [List.foldl_cons, ih]
    simp only [Finset.mem_union, List.mem_cons]
    constructor
    · rintro ((hx | hx) | ⟨cc, hcc, hx⟩)
      · exact Or.inl hx
      · exact Or.inr ⟨d, Or.inl rfl, hx⟩
      · exact Or.inr ⟨cc, Or.inr hcc, hx⟩
    · rintro (hx | ⟨cc, (rfl | hcc), hx⟩)
      · exact Or.inl (Or.inl hx)
      · exact Or.inl (Or.inr hx)
      · exact Or.inr ⟨cc, hcc, hx⟩

end Mahjong

namespace Mahjong

theorem getD_mem_of_lt {l : List (Finset ℕ)} {i : ℕ} (hi : i < l.length) :
    l.getD i ∅ ∈ l :=
  DLX.rowAt_mem hi

/-- C1: `is_winning_hand` returns true exactly when the hand holds 14
tiles and some exact cover of the candidate melds enumerated by
`get_combinations` uses exactly 5 melds, at least one of them a pair; in
particular a 13-tile hand is never winning. -/
theorem is_winning_hand_iff_exact_cover (h : Hand) :
    is_winning_hand h = true ↔
      (h.length = 14 ∧ ∃ S : Finset ℕ,
        DLX.IsExactCover (get_combinations h) S ∧ S.card = 5 ∧
        ∃ i ∈ S, (get_combinations h).getD i ∅ ∈ get_pairs h) := by
  by_cases hlen : h.length = 14
  · simp only [is_winning_hand]
    rw [if_neg (not_not_intro hlen)]
    by_cases hp : (get_pairs h).length = 0
    · rw [if_pos hp]
      simp only [Bool.false_eq_true, false_iff]
      rintro ⟨_, S, _, _, i, hiS, hpair⟩
      exact absurd (List.length_eq_zero.mp hp) (List.ne_nil_of_mem hpair)
    · rw [if_neg hp]
      by_cases h5 : (get_combinations h).length < 5
      · rw [if_pos h5]
        simp only [Bool.false_eq_true, false_iff]
        rintro ⟨_, S, ⟨hbound, _, _⟩, hcard5, _⟩
        have hsub : S ⊆ Finset.range (get_combinations h).length :=
          fun i hi => Finset.mem_range.mpr (hbound i hi)
        have := Finset.card_le_card hsub
        rw [Finset.card_range] at this
        omega
      · rw [if_neg h5]
        by_cases hu : ((get_combinations h).foldl (fun acc c => acc ∪ c) ∅).card ≠ 14
        · rw [if_pos hu]
          simp only [Bool.false_eq_true, false_iff]
          rintro ⟨_, S, ⟨hbound, hdisj, hcover⟩, hcard5, _⟩
          apply hu
          have hused_sub :
              (get_combinations h).foldl (fun acc c => acc ∪ c) ∅ ⊆ Finset.range 14 := by
            intro x hx
            rcases (mem_foldl_union _ _ _).mp hx with hx0 | ⟨cc, hcc, hxc⟩
            · exact absurd hx0 (Finset.not_mem_empty x)
            · exact Finset.mem_range.mpr (hlen ▸ get_combinations_bounds hcc x hxc)
          have hsup : Finset.range 14 ⊆
              (get_combinations h).foldl (fun acc c => acc ∪ c) ∅ := by
            intro x hx
            rw [← hcover] at hx
            obtain ⟨i, hiS, hxi⟩ := Finset.mem_biUnion.mp hx
            apply (mem_foldl_union _ _ _).mpr
            exact Or.inr ⟨(get_combinations h).getD i ∅, getD_mem_of_lt (hbound i hiS), hxi⟩
          rw [Finset.Subset.antisymm hused_sub hsup, Finset.card_range]
        · rw [if_neg hu]
          have h1' : ∀ r ∈ get_combinations h, ∀ x ∈ r, x < 14 :=
            fun r hr x hx => hlen ▸ get_combinations_bounds hr x hx
          have h2' : ∀ r ∈ get_combinations h, 2 ≤ r.card :=
            fun r hr => get_combinations_card_ge hr
          obtain ⟨covers, hcov, hiff⟩ := DLX.exact_covers_spec _ h1' h2'
          rw [hcov]
          show (covers.any fun cover =>
              cover.card == 5
                && decide (∃ index ∈ cover,
                      ((get_combinations h).getD index ∅).card = 2)) = true ↔ _
          rw [List.any_eq_true]
          constructor
          · rintro ⟨cover, hcmem, hpred⟩
            simp only [Bool.and_eq_true, beq_iff_eq, decide_eq_true_eq] at hpred
            obtain ⟨hc5, i, hic, hcard2⟩ := hpred
            have hcovS := (hiff cover).mp hcmem
            refine ⟨hlen, cover, hcovS, hc5, i, hic, ?_⟩
            exact card_two_mem_pairs (getD_mem_of_lt (hcovS.1 i hic)) hcard2
          · rintro ⟨_, S, hcovS, h5', i, hiS, hpair⟩
            refine ⟨S, (hiff S).mpr hcovS, ?_⟩
            simp only [Bool.and_eq_true, beq_iff_eq, decide_eq_true_eq]
            refine ⟨h5', i, hiS, ?_⟩
            obtain ⟨a, b, hab, _, hEq⟩ := mem_get_pairs hpair
            rw [hEq]
            exact card_two_of_lt hab
  · simp only [is_winning_hand]
    rw [if_pos hlen]
    simp only [Bool.false_eq_true, false_iff]
    rintro ⟨h14, _⟩
    exact hlen h14

end Mahjong

set_option maxRecDepth 40000 in
/-- C2 (counterexample): on the input `[{0,…,12}, {13}]` — index sets
within `{0,…,13}` — the subset `{0, 1}` of row indices is an exact
cover, yet the solver reaches a state with a single live column of
positive count, `get_min_column` returns the header sentinel, and
`cover` dereferences its null column pointer: the run is undefined
behaviour (`none`), not the claimed enumeration of covers. -/
theorem find_exact_covers_crash_on_singleton_row :
    DLX.find_exact_covers [Finset.range 13, {13}] = none ∧
    DLX.IsExactCover [Finset.range 13, {13}] {0, 1} := by
  constructor
  · decide
  · unfold DLX.IsExactCover
    decide

/-- C2 (amended): for inputs whose rows lie in `{0,…,13}` and have at
least two elements each (as every Mahjong meld does), `find_exact_covers`
returns normally, every returned cover is an exact cover, and every
exact-cover subset of the rows is returned. -/
theorem find_exact_covers_sound_complete (rows : List (Finset ℕ))
    (h1 : ∀ r ∈ rows, ∀ x ∈ r, x < 14) (h2 : ∀ r ∈ rows, 2 ≤ r.card) :
    ∃ out, DLX.find_exact_covers rows = some out ∧
      ∀ S, S ∈ out ↔ DLX.IsExactCover rows S :=
  DLX.exact_covers_spec rows h1 h2

set_option maxRecDepth 40000 in
theorem find_exact_covers_sound_complete_witness :
    ∃ out,
      DLX.find_exact_covers [Finset.range 7, (Finset.range 14).filter (7 ≤ ·)]
        = some out ∧
      ∀ S, S ∈ out ↔
        DLX.IsExactCover [Finset.range 7, (Finset.range 14).filter (7 ≤ ·)] S :=
  find_exact_covers_sound_complete _ (by decide) (by decide)

set_option maxRecDepth 40000 in
/-- C7 (counterexample): an input holding a row with the out-of-range
column 14 is not rejected at the boundary: the solver proceeds and
returns the ordinary cover `{0, 1}` found among the well-formed rows. -/
theorem find_exact_covers_accepts_out_of_range :
    DLX.find_exact_covers [Finset.range 7, (Finset.range 14).filter (7 ≤ ·), {14}]
      = some [{1, 0}] := by
  decide

/-- C7 (amended): `find_exact_covers` performs no input validation at
all: entries `≥ 14` are never linked into the 14-column matrix, so the
solver behaves exactly as if every row had been clipped to `{0,…,13}`,
and proceeds to solve. -/
theorem find_exact_covers_ignores_out_of_range (sets : List (Finset ℕ)) :
    DLX.find_exact_covers (sets.map DLX.clipRow) = DLX.find_exact_covers sets :=
  DLX.find_exact_covers_map_clipRow sets

namespace Mahjong

/-- C3 (code bug): `get_chows` returns the triple of three Dragon-suit
tiles (suit 4) of ranks 0, 1, 2 — the guard `suit == 3 || suit == 3`
skips Winds twice instead of Winds and Dragons, contradicting the
function's own documentation ("three tiles of suit bamboo, character or
circles"). -/
theorem get_chows_returns_dragon_triple :
    get_chows [⟨4, 0, true⟩, ⟨4, 1, true⟩, ⟨4, 2, true⟩] = [{0, 1, 2}] ∧
    (∀ t ∈ ([⟨4, 0, true⟩, ⟨4, 1, true⟩, ⟨4, 2, true⟩] : Hand), t.suit = 4) := by
  constructor
  · decide
  · decide

/-- C4: `prioritize_pickup_action` adopts the first kong claim whenever
one exists, otherwise the first pong claim, otherwise the first chow
claim, and returns `(-1, "none")` when nobody claims — so simultaneous
kong, pong and chow claims always resolve to the kong. -/
theorem prioritize_pickup_action_priority (actions : List String) :
    Game.prioritize_pickup_action actions =
      if "kong" ∈ actions then ((actions.indexOf "kong" : ℤ), "kong")
      else if "pong" ∈ actions then ((actions.indexOf "pong" : ℤ), "pong")
      else if "chow" ∈ actions then ((actions.indexOf "chow" : ℤ), "chow")
      else (-1, "none") := by
  simp only [Game.prioritize_pickup_action]
  by_cases h1 : "kong" ∈ actions
  · rw [if_pos (List.indexOf_lt_length.mpr h1), if_pos h1]
  · rw [if_neg (by rw [List.indexOf_eq_length.mpr h1]; omega), if_neg h1]
    by_cases h2 : "pong" ∈ actions
    · rw [if_pos (List.indexOf_lt_length.mpr h2), if_pos h2]
    · rw [if_neg (by rw [List.indexOf_eq_length.mpr h2]; omega), if_neg h2]
      by_cases h3 : "chow" ∈ actions
      · rw [if_pos (List.indexOf_lt_length.mpr h3), if_pos h3]
      · rw [if_neg (by rw [List.indexOf_eq_length.mpr h3]; omega), if_neg h3]

/-- C6 (counterexample): in the score table, the all-open pong of a
non-Wind suit (key `(2, 0, 0)`, visibility 0 = not hidden) is worth base
4 while the all-hidden pong (key `(2, 0, 1)`) is worth base 8: revealing
the pong strictly DECREASES the table-looked-up base score, the opposite
direction of the claim. -/
theorem score_table_open_pong_below_hidden :
    score_table 2 0 0 = (4, 0) ∧ score_table 2 0 1 = (8, 0) ∧
    (score_table 2 0 0).1 < (score_table 2 0 1).1 := by
  refine ⟨by decide, by decide, by decide⟩

/-- C6 (amended): for every non-Wind suit, changing a pong from
all-hidden to all-open strictly decreases its table-looked-up base score
(8 versus 4 for the plain suits, 16 versus 8 for Dragons); it never
increases it. -/
theorem score_table_pong_reveal_strictly_decreases (s : ℤ)
    (h0 : 0 ≤ s) (h4 : s ≤ 4) (h3 : s ≠ 3) :
    (score_table 2 s 0).1 < (score_table 2 s 1).1 := by
  have hs : s = 0 ∨ s = 1 ∨ s = 2 ∨ s = 4 := by omega
  rcases hs with rfl | rfl | rfl | rfl <;> decide

theorem score_table_pong_reveal_strictly_decreases_witness :
    (score_table 2 0 0).1 < (score_table 2 0 1).1 :=
  score_table_pong_reveal_strictly_decreases 0 (by decide) (by decide) (by decide)

/-- C9: `Set::pop_tile` on an empty set returns the sentinel default
tile (suit Circles = 0, rank 0) leaving the set empty, and on a
non-empty set returns the last tile, the set shrinking by exactly that
tile. -/
theorem pop_tile_spec (l : List Tile) (t : Tile) :
    Set.pop_tile [] = (⟨0, 0, true⟩, ([] : List Tile)) ∧
    Set.pop_tile (l ++ [t]) = (t, l) := by
  constructor
  · rfl
  · rw [Set.pop_tile, if_neg (by simp)]
    rw [List.getLastD_concat, List.dropLast_concat]

end Mahjong

namespace Mahjong

set_option maxRecDepth 40000 in
/-- C5 (counterexample): `dragonPongHand` is a winning hand whose
maximum score pair is `(16, 1)`; with Mahjong declared the game computes
`(16 + 20) * 2^1 = 72` and not the claimed `16 * 2^1 + 20 = 52` — the
flat +20 bonus is scaled by the multiplier. -/
theorem game_score_mahjong_bonus_counterexample :
    is_winning_hand dragonPongHand = true ∧
    get_max_score dragonPongHand 0 0 = (16, 1) ∧
    Game.get_player_score dragonPongHand 0 0 true true = 72 ∧
    (16 : ℤ) * 2 ^ (1 : ℕ) + 20 = 52 ∧ (72 : ℤ) ≠ 52 := by
  refine ⟨by decide, by decide, by decide, by decide, by decide⟩

/-- C5 (amended): with Mahjong declared, the final score equals
`(base + 20) * 2^multiplier` where `(base, multiplier)` is the hand's
maximum score pair — the +20 declaration bonus is added before the
doubling, so whenever the multiplier is positive the result differs from
`base * 2^multiplier + 20`. -/
theorem game_score_scales_mahjong_bonus (h : Hand) (rwind swind : ℤ)
    (hm : 0 < (get_max_score h rwind swind).2) :
    Game.get_player_score h rwind swind true true
      = ((get_max_score h rwind swind).1 + 20)
          * 2 ^ (get_max_score h rwind swind).2.toNat ∧
    Game.get_player_score h rwind swind true true
      ≠ (get_max_score h rwind swind).1
          * 2 ^ (get_max_score h rwind swind).2.toNat + 20 := by
  constructor
  · rfl
  · have hm1 : 1 ≤ (get_max_score h rwind swind).2.toNat := by omega
    have hpow : (2 : ℤ) ≤ 2 ^ (get_max_score h rwind swind).2.toNat := by
      calc (2 : ℤ) = 2 ^ 1 := by ring
        _ ≤ 2 ^ (get_max_score h rwind swind).2.toNat :=
          pow_le_pow_right₀ (by norm_num) hm1
    have hfst : Game.get_player_score h rwind swind true true
        = ((get_max_score h rwind swind).1 + 20)
            * 2 ^ (get_max_score h rwind swind).2.toNat := rfl
    rw [hfst]
    intro hcontra
    have hexp : ((get_max_score h rwind swind).1 + 20)
        * 2 ^ (get_max_score h rwind swind).2.toNat
        = (get_max_score h rwind swind).1
            * 2 ^ (get_max_score h rwind swind).2.toNat
          + 20 * 2 ^ (get_max_score h rwind swind).2.toNat := by ring
    rw [hexp] at hcontra
    have : 20 * (2 : ℤ) ^ (get_max_score h rwind swind).2.toNat = 20 := by omega
    nlinarith

set_option maxRecDepth 40000 in
theorem game_score_scales_mahjong_bonus_witness :
    Game.get_player_score dragonPongHand 0 0 true true
      = ((get_max_score dragonPongHand 0 0).1 + 20)
          * 2 ^ (get_max_score dragonPongHand 0 0).2.toNat ∧
    Game.get_player_score dragonPongHand 0 0 true true
      ≠ (get_max_score dragonPongHand 0 0).1
          * 2 ^ (get_max_score dragonPongHand 0 0).2.toNat + 20 :=
  game_score_scales_mahjong_bonus dragonPongHand 0 0 (by decide)

/-- C8: `add_final_score` adds exactly
`min (base_with_bonuses * 2^multiplier) 3000` to the chosen player's
cumulative score — never more than 3000 per round — and leaves every
other player's cumulative score unchanged. -/
theorem add_final_score_spec (scores : List ℤ) (p : ℕ) (h : Hand)
    (rwind swind : ℤ) (m : Bool) (hp : p < scores.length) :
    (Game.add_final_score scores p h rwind swind m).getD p 0
      = scores.getD p 0
        + min ((Player.get_player_score h rwind swind true m).1
                * 2 ^ (Player.get_player_score h rwind swind true m).2.toNat) 3000 ∧
    (∀ q, q ≠ p → (Game.add_final_score scores p h rwind swind m).getD q 0
        = scores.getD q 0) ∧
    (Game.add_final_score scores p h rwind swind m).getD p 0
        - scores.getD p 0 ≤ 3000 := by
  set s := Player.get_player_score h rwind swind true m with hs
  set T := s.1 * 2 ^ s.2.toNat with hT
  have hmin : (if T > 3000 then 3000 else T) = min T 3000 := by
    rcases le_or_lt T 3000 with hh | hh
    · rw [if_neg (by omega), min_eq_left hh]
    · rw [if_pos hh, min_eq_right (by omega)]
  have hset : Game.add_final_score scores p h rwind swind m
      = scores.set p (scores.getD p 0 + min T 3000) := by
    show scores.set p (scores.getD p 0 + (if T > 3000 then 3000 else T))
      = scores.set p (scores.getD p 0 + min T 3000)
    rw [hmin]
  have hv : (scores.set p (scores.getD p 0 + min T 3000)).getD p 0
      = scores.getD p 0 + min T 3000 := by
    simp [List.getD_eq_getElem?_getD, List.getElem?_set_self, hp]
  refine ⟨?_, ?_, ?_⟩
  · rw [hset, hv]
  · intro q hq
    rw [hset]
    simp [List.getD_eq_getElem?_getD, List.getElem?_set_ne (by omega : p ≠ q)]
  · rw [hset, hv]
    have hmr := min_le_right T 3000
    omega

theorem add_final_score_spec_witness :
    (Game.add_final_score [0, 0, 0, 0] 0 [] 0 0 false).getD 0 0
      = ([0, 0, 0, 0] : List ℤ).getD 0 0
        + min ((Player.get_player_score [] 0 0 true false).1
                * 2 ^ (Player.get_player_score [] 0 0 true false).2.toNat) 3000 ∧
    (∀ q, q ≠ 0 → (Game.add_final_score [0, 0, 0, 0] 0 [] 0 0 false).getD q 0
        = ([0, 0, 0, 0] : List ℤ).getD q 0) ∧
    (Game.add_final_score [0, 0, 0, 0] 0 [] 0 0 false).getD 0 0
        - ([0, 0, 0, 0] : List ℤ).getD 0 0 ≤ 3000 :=
  add_final_score_spec [0, 0, 0, 0] 0 [] 0 0 false (by decide)

theorem check_available_actions_eq (h : Hand) (pile : List Tile) (p cur : ℕ) :
    check_available_actions h pile p cur =
      (if check_kong h (Discard_pile.back pile) then ["kong"]
       else if check_pong h (Discard_pile.back pile) then ["pong"]
       else if check_chow h (Discard_pile.back pile)
              && (p == (cur + 1) % 4) then ["chow"] else []) := rfl

/-- C10: on a non-empty discard pile `check_available_actions` offers at
most one action: "kong" exactly when the hidden hand holds three copies
of the last discard, otherwise "pong" exactly when it holds two,
otherwise "chow" exactly when `check_chow` succeeds and the claimant
sits right after the discarder. -/
theorem check_available_actions_spec (h : Hand) (pile : List Tile) (p cur : ℕ)
    (hpile : pile ≠ []) :
    (check_available_actions h pile p cur).length ≤ 1 ∧
    ("kong" ∈ check_available_actions h pile p cur ↔
      (get_hidden_hand h).countP (fun x => tileEq x (Discard_pile.back pile)) = 3) ∧
    ("pong" ∈ check_available_actions h pile p cur ↔
      (get_hidden_hand h).countP (fun x => tileEq x (Discard_pile.back pile)) = 2) ∧
    ("chow" ∈ check_available_actions h pile p cur ↔
      ((get_hidden_hand h).countP (fun x => tileEq x (Discard_pile.back pile)) ≠ 3 ∧
       (get_hidden_hand h).countP (fun x => tileEq x (Discard_pile.back pile)) ≠ 2 ∧
       check_chow h (Discard_pile.back pile) = true ∧ p = (cur + 1) % 4)) := by
  rw [check_available_actions_eq]
  cases hc3 : check_kong h (Discard_pile.back pile) with
  | true =>
    have h3 : (get_hidden_hand h).countP
        (fun x => tileEq x (Discard_pile.back pile)) = 3 := by
      simpa [check_kong] using hc3
    simp [h3]
  | false =>
    have h3 : (get_hidden_hand h).countP
        (fun x => tileEq x (Discard_pile.back pile)) ≠ 3 := by
      simpa [check_kong] using hc3
    cases hc2 : check_pong h (Discard_pile.back pile) with
    | true =>
      have h2 : (get_hidden_hand h).countP
          (fun x => tileEq x (Discard_pile.back pile)) = 2 := by
        simpa [check_pong] using hc2
      simp [h2, h3]
    | false =>
      have h2 : (get_hidden_hand h).countP
          (fun x => tileEq x (Discard_pile.back pile)) ≠ 2 := by
        simpa [check_pong] using hc2
      cases hcc : (check_chow h (Discard_pile.back pile) && (p == (cur + 1) % 4)) with
      | true =>
        simp only [Bool.and_eq_true, beq_iff_eq] at hcc
        simp [h2, h3, hcc]
      | false =>
        have hchow : ¬(check_chow h (Discard_pile.back pile) = true
            ∧ p = (cur + 1) % 4) := by
          rintro ⟨ha, hb⟩
          rw [ha, hb] at hcc
          simp at hcc
        simp only [Bool.false_eq_true, if_false]
        refine ⟨by simp, by simp [h3], by simp [h2], ?_⟩
        simp only [List.not_mem_nil, false_iff]
        rintro ⟨_, _, hc, hs2⟩
        exact hchow ⟨hc, hs2⟩

theorem check_available_actions_spec_witness :
    (check_available_actions [⟨0, 1, true⟩, ⟨0, 1, true⟩, ⟨0, 1, true⟩]
        [⟨0, 1, true⟩] 1 0).length ≤ 1 ∧
    ("kong" ∈ check_available_actions [⟨0, 1, true⟩, ⟨0, 1, true⟩, ⟨0, 1, true⟩]
        [⟨0, 1, true⟩] 1 0 ↔
      (get_hidden_hand [⟨0, 1, true⟩, ⟨0, 1, true⟩, ⟨0, 1, true⟩]).countP
        (fun x => tileEq x (Discard_pile.back [⟨0, 1, true⟩])) = 3) ∧
    ("pong" ∈ check_available_actions [⟨0, 1, true⟩, ⟨0, 1, true⟩, ⟨0, 1, true⟩]
        [⟨0, 1, true⟩] 1 0 ↔
      (get_hidden_hand [⟨0, 1, true⟩, ⟨0, 1, true⟩, ⟨0, 1, true⟩]).countP
        (fun x => tileEq x (Discard_pile.back [⟨0, 1, true⟩])) = 2) ∧
    ("chow" ∈ check_available_actions [⟨0, 1, true⟩, ⟨0, 1, true⟩, ⟨0, 1, true⟩]
        [⟨0, 1, true⟩] 1 0 ↔
      ((get_hidden_hand [⟨0, 1, true⟩, ⟨0, 1, true⟩, ⟨0, 1, true⟩]).countP
        (fun x => tileEq x (Discard_pile.back [⟨0, 1, true⟩])) ≠ 3 ∧
       (get_hidden_hand [⟨0, 1, true⟩, ⟨0, 1, true⟩, ⟨0, 1, true⟩]).countP
        (fun x => tileEq x (Discard_pile.back [⟨0, 1, true⟩])) ≠ 2 ∧
       check_chow [⟨0, 1, true⟩, ⟨0, 1, true⟩, ⟨0, 1, true⟩]
        (Discard_pile.back [⟨0, 1, true⟩]) = true ∧ 1 = (0 + 1) % 4)) :=
  check_available_actions_spec [⟨0, 1, true⟩, ⟨0, 1, true⟩, ⟨0, 1, true⟩]
    [⟨0, 1, true⟩] 1 0 (by decide)

end Mahjong
